import Mathlib

/-!
Verification of the hyrex-examples repository: the durable task queue and the
DAG workflow scheduler exercised by the TypeScript examples.

The queue/scheduler engine itself lives in the external `@hyrex/hyrex`
package; the repository contains its callers (`hyrex/tasks.ts`,
`hyrex/workflows.ts`, `src/app/actions.ts`).  Engine-side definitions below
are therefore modelled from the specification (each such definition says so
in its doc comment); the OnboardUser workflow DAG and the Next.js server
actions are embedded directly from the repository's source.
-/

set_option autoImplicit false

namespace Hyrex

/-! ## Workflow scheduler: data model -/

/-- Modelled from the spec (§4.4): per-node status in a workflow run.
`Running` is the transient dispatched state; `Succeeded`, `Failed`,
`Skipped` are terminal. -/
inductive NodeStatus where
  | Pending
  | Running
  | Succeeded
  | Failed
  | Skipped
deriving DecidableEq, Repr

/-- A terminal node status (§4.4): `Succeeded`, `Failed` or `Skipped`. -/
def NodeStatus.isTerminal : NodeStatus → Bool
  | .Succeeded => true
  | .Failed => true
  | .Skipped => true
  | _ => false

/-- Modelled from the spec (§3): a workflow definition is a DAG of nodes with
a predecessor map.  Acyclicity is witnessed by a rank function that strictly
decreases along predecessor edges. -/
structure Workflow where
  nodes : List Nat
  preds : Nat → List Nat
  rank : Nat → Nat
  rank_lt : ∀ n, ∀ m ∈ preds n, rank m < rank n
  preds_mem : ∀ n ∈ nodes, ∀ m ∈ preds n, m ∈ nodes

/-- The outcome of actually executing a node's underlying task:
`true` = the task run ends `Succeeded`, `false` = terminal `Failed`
(a failed or exhausted-timed-out task run, §4.2/§4.4). -/
def outcomeStatus (outcome : Nat → Bool) (n : Nat) : NodeStatus :=
  if outcome n then .Succeeded else .Failed

/-- Modelled from the spec (§4.4): the denotational final status of a node
for a fixed assignment of per-node task outcomes, computed with explicit
fuel (any fuel above the node's rank gives the same answer,
`finalStatusF_congr`).  A node whose predecessors all end `Succeeded` gets
its own task outcome; any other node is `Skipped`. -/
def finalStatusF (preds : Nat → List Nat) (outcome : Nat → Bool) :
    Nat → Nat → NodeStatus
  | 0, _ => .Pending
  | fuel + 1, n =>
    if (preds n).all (fun m => finalStatusF preds outcome fuel m == .Succeeded) then
      outcomeStatus outcome n
    else
      .Skipped

/-- The final status of a node in a workflow, with fuel `rank n + 1`. -/
def Workflow.finalStatus (W : Workflow) (outcome : Nat → Bool) (n : Nat) :
    NodeStatus :=
  finalStatusF W.preds outcome (W.rank n + 1) n

theorem list_all_congr {α : Type} (l : List α) (p q : α → Bool)
    (h : ∀ x ∈ l, p x = q x) : l.all p = l.all q := by
  induction l with
  | nil => rfl
  | cons a t iht =>
    simp only [List.all_cons, h a (by simp), iht (fun x hx => h x (by simp [hx]))]

/-- The fuel argument of `finalStatusF` is irrelevant as long as it exceeds
the node's rank. -/
theorem finalStatusF_congr (W : Workflow) (outcome : Nat → Bool) :
    ∀ r n, W.rank n ≤ r → ∀ fuel fuel', W.rank n < fuel → W.rank n < fuel' →
      finalStatusF W.preds outcome fuel n = finalStatusF W.preds outcome fuel' n := by
  intro r
  induction r using Nat.strong_induction_on with
  | _ r ih =>
    intro n hr fuel fuel' hf hf'
    obtain ⟨f, rfl⟩ : ∃ f, fuel = f + 1 := ⟨fuel - 1, by omega⟩
    obtain ⟨g, rfl⟩ : ∃ g, fuel' = g + 1 := ⟨fuel' - 1, by omega⟩
    simp only [finalStatusF]
    have hall : (W.preds n).all
          (fun m => finalStatusF W.preds outcome f m == NodeStatus.Succeeded)
        = (W.preds n).all
          (fun m => finalStatusF W.preds outcome g m == NodeStatus.Succeeded) := by
      apply list_all_congr
      intro m hm
      have hlt := W.rank_lt n m hm
      rw [ih (W.rank m) (by omega) m le_rfl f g (by omega) (by omega)]
    rw [hall]

/-- The recursion equation for `Workflow.finalStatus`: a node gets its own
task outcome when every predecessor's final status is `Succeeded`, and is
`Skipped` otherwise. -/
theorem finalStatus_eq (W : Workflow) (outcome : Nat → Bool) (n : Nat) :
    W.finalStatus outcome n =
      if (W.preds n).all (fun m => W.finalStatus outcome m == .Succeeded) then
        outcomeStatus outcome n
      else
        .Skipped := by
  show finalStatusF W.preds outcome (W.rank n + 1) n = _
  simp only [finalStatusF]
  have hall : (W.preds n).all
        (fun m => finalStatusF W.preds outcome (W.rank n) m == NodeStatus.Succeeded)
      = (W.preds n).all
        (fun m => W.finalStatus outcome m == NodeStatus.Succeeded) := by
    apply list_all_congr
    intro m hm
    have hlt := W.rank_lt n m hm
    rw [finalStatusF_congr W outcome (W.rank m) m le_rfl (W.rank n) (W.rank m + 1)
      (by omega) (by omega)]
    rfl
  rw [hall]

/-- The function `finalStatus` never returns `Pending` or `Running`: it is `Succeeded`,
`Failed` or `Skipped`. -/
theorem finalStatus_isTerminal (W : Workflow) (outcome : Nat → Bool) (n : Nat) :
    (W.finalStatus outcome n).isTerminal = true := by
  rw [finalStatus_eq]
  by_cases h : (W.preds n).all (fun m => W.finalStatus outcome m == NodeStatus.Succeeded)
  · simp [h, outcomeStatus]
    by_cases ho : outcome n <;> simp [ho, NodeStatus.isTerminal]
  · simp [h, NodeStatus.isTerminal]

/-! ## Workflow scheduler: operational model

A run of the scheduler is a sequence of events: dispatching a ready node
(enqueueing its underlying task and marking it `Running`), a dispatched
node's task run reaching its terminal outcome, and failure propagation
marking a blocked node `Skipped`.  The order of events among independent
siblings is completely unconstrained; a guard that does not hold makes the
event a no-op. -/

/-- Modelled from the spec (§4.4): scheduler events. -/
inductive Ev where
  | disp (n : Nat)
  | comp (n : Nat)
  | skip (n : Nat)
deriving DecidableEq, Repr

/-- Scheduler state: the per-run `nodeStatus` map plus the dispatch log
(the nodes enqueued so far, in order). -/
structure SchedState where
  status : Nat → NodeStatus
  log : List Nat

/-- Initial scheduler state: every node `Pending`, nothing dispatched. -/
def initState : SchedState := { status := fun _ => .Pending, log := [] }

/-- Pointwise update of a status map. -/
def setStatus (s : Nat → NodeStatus) (n : Nat) (v : NodeStatus) :
    Nat → NodeStatus :=
  fun m => if m = n then v else s m

/-- Modelled from the spec (§4.4): one scheduler step.
`disp n` enqueues `n` (marks it `Running`, appends it to the dispatch log)
when `n` is `Pending` and every predecessor is `Succeeded`;
`comp n` resolves a `Running` node to its task outcome;
`skip n` marks a `Pending` node `Skipped` when some predecessor is already
`Failed` or `Skipped` (so its predecessor set can no longer all succeed).
An event whose guard does not hold is a no-op. -/
def step (W : Workflow) (outcome : Nat → Bool) (s : SchedState) : Ev → SchedState
  | .disp n =>
    if (s.status n == .Pending)
        && (W.preds n).all (fun m => s.status m == .Succeeded) then
      { status := setStatus s.status n .Running, log := s.log ++ [n] }
    else s
  | .comp n =>
    if s.status n == .Running then
      { s with status := setStatus s.status n (outcomeStatus outcome n) }
    else s
  | .skip n =>
    if (s.status n == .Pending)
        && (W.preds n).any
          (fun m => s.status m == .Failed || s.status m == .Skipped) then
      { s with status := setStatus s.status n .Skipped }
    else s

/-- Execute a whole schedule from the initial state. -/
def exec (W : Workflow) (outcome : Nat → Bool) (evs : List Ev) : SchedState :=
  evs.foldl (step W outcome) initState

/-- A complete run: every node of the workflow has reached a terminal
status (no `Pending` or `Running` node remains). -/
def Complete (W : Workflow) (s : SchedState) : Prop :=
  ∀ n ∈ W.nodes, (s.status n).isTerminal = true

instance (W : Workflow) (s : SchedState) : Decidable (Complete W s) :=
  List.decidableBAll _ W.nodes

/-- The scheduler invariant: every node is still `Pending`, or is `Running`
with its (already determined) final status equal to its own task outcome,
or has settled at exactly its denotational final status. -/
def Inv (W : Workflow) (outcome : Nat → Bool) (s : SchedState) : Prop :=
  ∀ n ∈ W.nodes,
    s.status n = .Pending ∨
    (s.status n = .Running ∧ W.finalStatus outcome n = outcomeStatus outcome n) ∨
    s.status n = W.finalStatus outcome n

theorem inv_init (W : Workflow) (outcome : Nat → Bool) :
    Inv W outcome initState := by
  intro n _
  exact Or.inl rfl

/-- A step never changes a node that already has a terminal status. -/
theorem step_stable (W : Workflow) (outcome : Nat → Bool) (s : SchedState)
    (e : Ev) (n : Nat) (h : (s.status n).isTerminal = true) :
    (step W outcome s e).status n = s.status n := by
  cases e with
  | disp k =>
    simp only [step]
    split
    · rename_i hg
      simp only [Bool.and_eq_true, beq_iff_eq] at hg
      simp only [setStatus]
      split
      · rename_i hnk
        subst hnk
        rw [hg.1] at h
        simp [NodeStatus.isTerminal] at h
      · rfl
    · rfl
  | comp k =>
    simp only [step]
    split
    · rename_i hg
      simp only [beq_iff_eq] at hg
      simp only [setStatus]
      split
      · rename_i hnk
        subst hnk
        rw [hg] at h
        simp [NodeStatus.isTerminal] at h
      · rfl
    · rfl
  | skip k =>
    simp only [step]
    split
    · rename_i hg
      simp only [Bool.and_eq_true, beq_iff_eq] at hg
      simp only [setStatus]
      split
      · rename_i hnk
        subst hnk
        rw [hg.1] at h
        simp [NodeStatus.isTerminal] at h
      · rfl
    · rfl

/-- One scheduler step preserves the invariant. -/
theorem inv_step (W : Workflow) (outcome : Nat → Bool) (s : SchedState) (e : Ev)
    (hs : Inv W outcome s) : Inv W outcome (step W outcome s e) := by
  cases e with
  | disp k =>
    simp only [step]
    split
    · rename_i hg
      simp only [Bool.and_eq_true, beq_iff_eq, List.all_eq_true] at hg
      intro n hn
      simp only [setStatus]
      by_cases hnk : n = k
      · subst hnk
        refine Or.inr (Or.inl ⟨by simp, ?_⟩)
        rw [finalStatus_eq]
        have hall : (W.preds n).all
            (fun m => W.finalStatus outcome m == NodeStatus.Succeeded) = true := by
          simp only [List.all_eq_true, beq_iff_eq]
          intro m hm
          have hmn : m ∈ W.nodes := W.preds_mem n hn m hm
          have hsm : s.status m = .Succeeded := by
            have := hg.2 m hm
            simpa using this
          rcases hs m hmn with h1 | ⟨h2, _⟩ | h3
          · rw [hsm] at h1; cases h1
          · rw [hsm] at h2; cases h2
          · rw [← h3, hsm]
        rw [hall]
        simp
      · simp only [if_neg hnk]
        exact hs n hn
    · exact hs
  | comp k =>
    simp only [step]
    split
    · rename_i hg
      simp only [beq_iff_eq] at hg
      intro n hn
      simp only [setStatus]
      by_cases hnk : n = k
      · subst hnk
        rcases hs n hn with h1 | ⟨_, hfs⟩ | h3
        · rw [hg] at h1; cases h1
        · refine Or.inr (Or.inr ?_)
          simp only [if_pos rfl]
          exact hfs.symm
        · exfalso
          have hterm := finalStatus_isTerminal W outcome n
          rw [← h3, hg] at hterm
          simp [NodeStatus.isTerminal] at hterm
      · simp only [if_neg hnk]
        exact hs n hn
    · exact hs
  | skip k =>
    simp only [step]
    split
    · rename_i hg
      simp only [Bool.and_eq_true, beq_iff_eq, List.any_eq_true,
        Bool.or_eq_true] at hg
      intro n hn
      simp only [setStatus]
      by_cases hnk : n = k
      · subst hnk
        refine Or.inr (Or.inr ?_)
        simp only [if_pos rfl]
        rw [finalStatus_eq]
        have hfalse : (W.preds n).all
            (fun m => W.finalStatus outcome m == NodeStatus.Succeeded) = false := by
          rw [← Bool.not_eq_true]
          simp only [List.all_eq_true, beq_iff_eq]
          intro hall
          obtain ⟨m, hm, hms⟩ := hg.2
          have hmn : m ∈ W.nodes := W.preds_mem n hn m hm
          have hsm : s.status m = .Failed ∨ s.status m = .Skipped := by
            rcases hms with h | h
            · exact Or.inl (by simpa using h)
            · exact Or.inr (by simpa using h)
          have hfm : W.finalStatus outcome m = .Succeeded := hall m hm
          rcases hs m hmn with h1 | ⟨h2, _⟩ | h3
          · rcases hsm with h | h <;> rw [h] at h1 <;> cases h1
          · rcases hsm with h | h <;> rw [h] at h2 <;> cases h2
          · rw [h3, hfm] at hsm
            rcases hsm with h | h <;> cases h
        rw [hfalse]
        simp
      · simp only [if_neg hnk]
        exact hs n hn
    · exact hs

/-- The invariant holds after executing any schedule. -/
theorem inv_exec (W : Workflow) (outcome : Nat → Bool) (evs : List Ev) :
    Inv W outcome (exec W outcome evs) := by
  have h : ∀ s, Inv W outcome s → Inv W outcome (evs.foldl (step W outcome) s) := by
    induction evs with
    | nil => intro s hs; exact hs
    | cons e t iht =>
      intro s hs
      exact iht _ (inv_step W outcome s e hs)
  exact h initState (inv_init W outcome)

/-- In a complete run, every node has settled at exactly its denotational
final status. -/
theorem complete_status_eq (W : Workflow) (outcome : Nat → Bool)
    (evs : List Ev) (hc : Complete W (exec W outcome evs)) :
    ∀ n ∈ W.nodes, (exec W outcome evs).status n = W.finalStatus outcome n := by
  intro n hn
  rcases inv_exec W outcome evs n hn with h1 | ⟨h2, _⟩ | h3
  · exfalso
    have := hc n hn
    rw [h1] at this
    simp [NodeStatus.isTerminal] at this
  · exfalso
    have := hc n hn
    rw [h2] at this
    simp [NodeStatus.isTerminal] at this
  · exact h3

/-! ## Workflow terminal status -/

/-- Modelled from the spec (§4.4): overall workflow run status. -/
inductive WStatus where
  | Succeeded
  | PartiallyFailed
  | Failed
deriving DecidableEq, Repr

/-- The sink nodes of a workflow: nodes that are no other node's
predecessor. -/
def Workflow.sinks (W : Workflow) : List Nat :=
  W.nodes.filter (fun n => !(W.nodes.any (fun m => (W.preds m).contains n)))

/-- Modelled from the spec (§4.4): workflow terminal status from a node
status map: `Succeeded` when every node succeeded; `PartiallyFailed` when
some sink succeeded while another sink failed or was skipped; `Failed`
otherwise. -/
def wfStatus (W : Workflow) (s : Nat → NodeStatus) : WStatus :=
  if W.nodes.all (fun n => s n == .Succeeded) then .Succeeded
  else if (W.sinks.any fun n => s n == .Succeeded)
      && (W.sinks.any fun n => s n == .Failed || s n == .Skipped) then
    .PartiallyFailed
  else .Failed

theorem list_any_congr {α : Type} (l : List α) (p q : α → Bool)
    (h : ∀ x ∈ l, p x = q x) : l.any p = l.any q := by
  induction l with
  | nil => rfl
  | cons a t iht =>
    simp only [List.any_cons, h a (by simp), iht (fun x hx => h x (by simp [hx]))]

/-- The function `wfStatus` only reads the status map at the workflow's own nodes. -/
theorem wfStatus_congr (W : Workflow) (s t : Nat → NodeStatus)
    (h : ∀ n ∈ W.nodes, s n = t n) : wfStatus W s = wfStatus W t := by
  have hsink : ∀ n ∈ W.sinks, n ∈ W.nodes := by
    intro n hn
    exact List.mem_of_mem_filter hn
  unfold wfStatus
  rw [list_all_congr W.nodes (fun n => s n == NodeStatus.Succeeded)
      (fun n => t n == NodeStatus.Succeeded)
      (fun n hn => by simp only [h n hn]),
    list_any_congr W.sinks (fun n => s n == NodeStatus.Succeeded)
      (fun n => t n == NodeStatus.Succeeded)
      (fun n hn => by simp only [h n (hsink n hn)]),
    list_any_congr W.sinks
      (fun n => s n == NodeStatus.Failed || s n == NodeStatus.Skipped)
      (fun n => t n == NodeStatus.Failed || t n == NodeStatus.Skipped)
      (fun n hn => by simp only [h n (hsink n hn)])]

/-! ## The OnboardUser workflow (from `hyrex/workflows.ts`)

Node codes for the seven tasks registered in `workflows.ts`; edges are the
ones created by `onboardUserWorkflow.body` (lines 187–196):
`start(initiateOnboard).next([validatePayment, validateIdentity,
validateOrg]).next(approveUser)` and the separate branch
`validateIdentity.next(checkCredit).next(trainCreditMachineLearningModel)`. -/

def initiateOnboard : Nat := 0
def validatePayment : Nat := 1
def validateIdentity : Nat := 2
def validateOrg : Nat := 3
def approveUser : Nat := 4
def checkCredit : Nat := 5
def trainCreditMachineLearningModel : Nat := 6

/-- Predecessor map of the OnboardUser DAG as built in `workflows.ts`. -/
def onboardPreds (n : Nat) : List Nat :=
  if n = validatePayment ∨ n = validateIdentity ∨ n = validateOrg then
    [initiateOnboard]
  else if n = approveUser then [validatePayment, validateIdentity, validateOrg]
  else if n = checkCredit then [validateIdentity]
  else if n = trainCreditMachineLearningModel then [checkCredit]
  else []

/-- A topological rank witnessing acyclicity of the OnboardUser DAG. -/
def onboardRank (n : Nat) : Nat :=
  if n = initiateOnboard then 0
  else if n = validatePayment ∨ n = validateIdentity ∨ n = validateOrg then 1
  else if n = approveUser ∨ n = checkCredit then 2
  else if n = trainCreditMachineLearningModel then 3
  else 0

/-- The OnboardUser workflow DAG (from `workflows.ts` lines 182–197). -/
def onboardUser : Workflow where
  nodes := [0, 1, 2, 3, 4, 5, 6]
  preds := onboardPreds
  rank := onboardRank
  rank_lt := by
    intro n m hm
    simp only [onboardPreds] at hm
    split_ifs at hm with h1 h2 h3 h4
    · rcases h1 with h | h | h <;> subst h <;> simp at hm <;> subst hm <;> decide
    · subst h2
      simp at hm
      rcases hm with h | h | h <;> subst h <;> decide
    · subst h3
      simp at hm
      subst hm
      decide
    · subst h4
      simp at hm
      subst hm
      decide
    · simp at hm
  preds_mem := by decide

/-- All task runs succeed. -/
def allSucceed : Nat → Bool := fun _ => true

/-- Outcome map where `validatePayment` fails; every other task run succeeds. -/
def paymentFails : Nat → Bool := fun n => !(n == validatePayment)

/-- A sequential schedule for OnboardUser. -/
def schedA : List Ev :=
  [.disp 0, .comp 0, .disp 1, .comp 1, .disp 2, .comp 2, .disp 3, .comp 3,
   .disp 4, .comp 4, .disp 5, .comp 5, .disp 6, .comp 6]

/-- A reordered schedule for OnboardUser: siblings dispatched and completed
in a different interleaving. -/
def schedB : List Ev :=
  [.disp 0, .comp 0, .disp 3, .disp 2, .comp 2, .disp 5, .comp 5, .disp 6,
   .disp 1, .comp 3, .comp 1, .disp 4, .comp 6, .comp 4]

/-- Claim C1: For every workflow and fixed assignment of per-node task
outcomes, any two complete executions of the scheduler — whatever the
dispatch/completion interleaving — end with the identical `nodeStatus` map
on the workflow's nodes and the identical workflow terminal status; the
final assignment is the pure function `Workflow.finalStatus` of the
outcomes. -/
theorem scheduler_determinism (W : Workflow) (outcome : Nat → Bool)
    (σ1 σ2 : List Ev)
    (h1 : Complete W (exec W outcome σ1)) (h2 : Complete W (exec W outcome σ2)) :
    (∀ n ∈ W.nodes, (exec W outcome σ1).status n = (exec W outcome σ2).status n) ∧
    wfStatus W (exec W outcome σ1).status = wfStatus W (exec W outcome σ2).status ∧
    (∀ n ∈ W.nodes, (exec W outcome σ1).status n = W.finalStatus outcome n) := by
  have hq1 := complete_status_eq W outcome σ1 h1
  have hq2 := complete_status_eq W outcome σ2 h2
  have hpt : ∀ n ∈ W.nodes,
      (exec W outcome σ1).status n = (exec W outcome σ2).status n := by
    intro n hn
    rw [hq1 n hn, hq2 n hn]
  exact ⟨hpt, wfStatus_congr W _ _ hpt, hq1⟩

/-- Witness for C1 at the OnboardUser workflow: two genuinely different
interleavings of the same outcomes give the same workflow status. -/
theorem scheduler_determinism_witness :
    wfStatus onboardUser (exec onboardUser allSucceed schedA).status
      = wfStatus onboardUser (exec onboardUser allSucceed schedB).status :=
  (scheduler_determinism onboardUser allSucceed schedA schedB
    (by decide) (by decide)).2.1

/-! ## Dispatch-log invariant (readiness: claim C2) -/

theorem setStatus_self (s : Nat → NodeStatus) (n : Nat) (v : NodeStatus) :
    setStatus s n v n = v := if_pos rfl

theorem setStatus_ne (s : Nat → NodeStatus) (n : Nat) (v : NodeStatus)
    (m : Nat) (h : m ≠ n) : setStatus s n v m = s m := if_neg h

theorem outcomeStatus_cases (o : Nat → Bool) (n : Nat) :
    outcomeStatus o n = .Succeeded ∨ outcomeStatus o n = .Failed := by
  unfold outcomeStatus
  split <;> simp

/-- The dispatch-log invariant: a node that is `Running`, `Succeeded` or
`Failed` was dispatched; a dispatched node is no longer `Pending`; no node
is dispatched twice; and a dispatched workflow node had (and keeps) every
predecessor `Succeeded`. -/
def InvL (W : Workflow) (s : SchedState) : Prop :=
  (∀ n, (s.status n = .Running ∨ s.status n = .Succeeded ∨ s.status n = .Failed) →
    n ∈ s.log) ∧
  (∀ n ∈ s.log, s.status n ≠ .Pending) ∧
  s.log.Nodup ∧
  (∀ n ∈ s.log, n ∈ W.nodes → ∀ m ∈ W.preds n, s.status m = .Succeeded)

theorem invL_init (W : Workflow) : InvL W initState := by
  refine ⟨?_, ?_, ?_, ?_⟩
  · intro n h
    rcases h with h | h | h <;> cases h
  · intro n h
    cases h
  · exact List.nodup_nil
  · intro n h
    cases h

theorem invL_step (W : Workflow) (outcome : Nat → Bool) (s : SchedState)
    (e : Ev) (hs : InvL W s) : InvL W (step W outcome s e) := by
  obtain ⟨hs1, hs2, hs3, hs4⟩ := hs
  cases e with
  | disp k =>
    simp only [step]
    split
    · rename_i hg
      simp only [Bool.and_eq_true, beq_iff_eq, List.all_eq_true] at hg
      have hkp : s.status k = .Pending := hg.1
      have hpreds : ∀ m ∈ W.preds k, s.status m = .Succeeded := by
        intro m hm
        have := hg.2 m hm
        simpa using this
      have hknotin : k ∉ s.log := fun hk => hs2 k hk hkp
      refine ⟨?_, ?_, ?_, ?_⟩
      · intro n hcase
        dsimp only at hcase ⊢
        by_cases hnk : n = k
        · rw [hnk]
          simp
        · rw [setStatus_ne s.status k _ n hnk] at hcase
          exact List.mem_append_left _ (hs1 n hcase)
      · intro n hnlog
        dsimp only at hnlog ⊢
        by_cases hnk : n = k
        · rw [hnk, setStatus_self]
          simp
        · rw [setStatus_ne s.status k _ n hnk]
          rcases List.mem_append.mp hnlog with h | h
          · exact hs2 n h
          · simp at h
            exact absurd h hnk
      · dsimp only
        rw [List.nodup_append]
        refine ⟨hs3, List.nodup_singleton k, ?_⟩
        intro a ha hak
        simp at hak
        rw [hak] at ha
        exact hknotin ha
      · intro n hnlog hnW m hm
        dsimp only at hnlog ⊢
        have hold : s.status m = .Succeeded := by
          rcases List.mem_append.mp hnlog with h | h
          · exact hs4 n h hnW m hm
          · have hn_eq : n = k := by simpa using h
            exact hpreds m (hn_eq ▸ hm)
        have hmk : m ≠ k := by
          intro e
          rw [e, hkp] at hold
          cases hold
        rw [setStatus_ne s.status k _ m hmk]
        exact hold
    · exact ⟨hs1, hs2, hs3, hs4⟩
  | comp k =>
    simp only [step]
    split
    · rename_i hg
      simp only [beq_iff_eq] at hg
      refine ⟨?_, ?_, hs3, ?_⟩
      · intro n hcase
        dsimp only at hcase ⊢
        by_cases hnk : n = k
        · rw [hnk]
          exact hs1 k (Or.inl hg)
        · rw [setStatus_ne s.status k _ n hnk] at hcase
          exact hs1 n hcase
      · intro n hnlog
        dsimp only at hnlog ⊢
        by_cases hnk : n = k
        · rw [hnk, setStatus_self]
          rcases outcomeStatus_cases outcome k with h | h <;> rw [h] <;> simp
        · rw [setStatus_ne s.status k _ n hnk]
          exact hs2 n hnlog
      · intro n hnlog hnW m hm
        dsimp only at hnlog ⊢
        have hold := hs4 n hnlog hnW m hm
        have hmk : m ≠ k := by
          intro e
          rw [e, hg] at hold
          cases hold
        rw [setStatus_ne s.status k _ m hmk]
        exact hold
    · exact ⟨hs1, hs2, hs3, hs4⟩
  | skip k =>
    simp only [step]
    split
    · rename_i hg
      simp only [Bool.and_eq_true, beq_iff_eq, List.any_eq_true,
        Bool.or_eq_true] at hg
      refine ⟨?_, ?_, hs3, ?_⟩
      · intro n hcase
        dsimp only at hcase ⊢
        by_cases hnk : n = k
        · rw [hnk, setStatus_self] at hcase
          rcases hcase with h | h | h <;> cases h
        · rw [setStatus_ne s.status k _ n hnk] at hcase
          exact hs1 n hcase
      · intro n hnlog
        dsimp only at hnlog ⊢
        by_cases hnk : n = k
        · rw [hnk, setStatus_self]
          simp
        · rw [setStatus_ne s.status k _ n hnk]
          exact hs2 n hnlog
      · intro n hnlog hnW m hm
        dsimp only at hnlog ⊢
        have hold := hs4 n hnlog hnW m hm
        have hmk : m ≠ k := by
          intro e
          rw [e, hg.1] at hold
          cases hold
        rw [setStatus_ne s.status k _ m hmk]
        exact hold
    · exact ⟨hs1, hs2, hs3, hs4⟩

theorem invL_exec (W : Workflow) (outcome : Nat → Bool) (evs : List Ev) :
    InvL W (exec W outcome evs) := by
  have h : ∀ s, InvL W s → InvL W (evs.foldl (step W outcome) s) := by
    induction evs with
    | nil => intro s hs; exact hs
    | cons e t iht =>
      intro s hs
      exact iht _ (invL_step W outcome s e hs)
  exact h initState (invL_init W)

/-- Claim C2: In every complete scheduler run, a node is dispatched (enters
`Running` / is enqueued) iff every predecessor's final status is
`Succeeded`; it is dispatched exactly once in that case and never
otherwise; and at any point of the run at which a node has been
dispatched, every one of its predecessors has already reached `Succeeded`
— regardless of the dispatch order among the predecessors. -/
theorem node_ready_iff (W : Workflow) (outcome : Nat → Bool) (evs : List Ev)
    (hc : Complete W (exec W outcome evs)) (n : Nat) (hn : n ∈ W.nodes) :
    (n ∈ (exec W outcome evs).log ↔
      ∀ m ∈ W.preds n, W.finalStatus outcome m = .Succeeded) ∧
    ((exec W outcome evs).log.count n =
      if (W.preds n).all (fun m => W.finalStatus outcome m == .Succeeded) then 1
      else 0) ∧
    (∀ evs₁ evs₂, evs = evs₁ ++ evs₂ → n ∈ (exec W outcome evs₁).log →
      ∀ m ∈ W.preds n, (exec W outcome evs₁).status m = .Succeeded) := by
  obtain ⟨h1, h2, h3, h4⟩ := invL_exec W outcome evs
  have hst := complete_status_eq W outcome evs hc
  have hiff : n ∈ (exec W outcome evs).log ↔
      ∀ m ∈ W.preds n, W.finalStatus outcome m = .Succeeded := by
    constructor
    · intro hlog m hm
      have hmW : m ∈ W.nodes := W.preds_mem n hn m hm
      have := h4 n hlog hn m hm
      rw [hst m hmW] at this
      exact this
    · intro hfs
      have hfn : W.finalStatus outcome n = outcomeStatus outcome n := by
        rw [finalStatus_eq]
        have hall : (W.preds n).all
            (fun m => W.finalStatus outcome m == NodeStatus.Succeeded) = true := by
          simp only [List.all_eq_true, beq_iff_eq]
          exact hfs
        rw [hall]
        simp
      have hsn : (exec W outcome evs).status n = outcomeStatus outcome n := by
        rw [hst n hn, hfn]
      rcases outcomeStatus_cases outcome n with h | h
      · exact h1 n (Or.inr (Or.inl (by rw [hsn, h])))
      · exact h1 n (Or.inr (Or.inr (by rw [hsn, h])))
  refine ⟨hiff, ?_, ?_⟩
  · by_cases hall : (W.preds n).all
        (fun m => W.finalStatus outcome m == NodeStatus.Succeeded) = true
    · rw [hall]
      simp only [if_true]
      have hmem : n ∈ (exec W outcome evs).log := by
        apply hiff.mpr
        intro m hm
        have := List.all_eq_true.mp hall m hm
        simpa using this
      exact List.count_eq_one_of_mem h3 hmem
    · rw [Bool.not_eq_true] at hall
      rw [hall]
      simp only [Bool.false_eq_true, if_false]
      apply List.count_eq_zero_of_not_mem
      intro hmem
      have hfs := hiff.mp hmem
      rw [← Bool.not_eq_true] at hall
      apply hall
      simp only [List.all_eq_true, beq_iff_eq]
      exact hfs
  · intro evs₁ evs₂ _ hlog m hm
    obtain ⟨_, _, _, g4⟩ := invL_exec W outcome evs₁
    exact g4 n hlog hn m hm

/-- Witness for C2 at the OnboardUser workflow when every task succeeds:
`approveUser` is dispatched exactly once in schedule `schedB`. -/
theorem node_ready_iff_witness :
    (exec onboardUser allSucceed schedB).log.count approveUser = 1 := by
  have h := (node_ready_iff onboardUser allSucceed schedB (by decide) approveUser
    (by decide)).2.1
  rw [h]
  decide

/-- A complete schedule for OnboardUser in which `validatePayment` fails:
the join `approveUser` is skipped once its failed predecessor is terminal,
while the `checkCredit → trainCreditMachineLearningModel` branch proceeds. -/
def schedF : List Ev :=
  [.disp 0, .comp 0, .disp 1, .disp 2, .disp 3, .comp 1, .comp 2, .comp 3,
   .skip 4, .disp 5, .comp 5, .disp 6, .comp 6]

/-- Claim C3: In every complete scheduler run, exactly the nodes some
predecessor of which did not end `Succeeded` are `Skipped` (descendants
whose predecessor paths are all healthy are unaffected); concretely, in the
OnboardUser workflow with `validatePayment` failing and all other tasks
succeeding, `approveUser` ends `Skipped`, the `checkCredit →
trainCreditMachineLearningModel` branch completes normally, and the
workflow terminal status is `PartiallyFailed`. -/
theorem skip_propagation (W : Workflow) (outcome : Nat → Bool) (evs : List Ev)
    (hc : Complete W (exec W outcome evs)) :
    (∀ n ∈ W.nodes,
      ((exec W outcome evs).status n = .Skipped ↔
        ∃ m ∈ W.preds n, (exec W outcome evs).status m ≠ .Succeeded)) ∧
    (exec onboardUser paymentFails schedF).status approveUser = .Skipped ∧
    (exec onboardUser paymentFails schedF).status checkCredit = .Succeeded ∧
    (exec onboardUser paymentFails
      schedF).status trainCreditMachineLearningModel = .Succeeded ∧
    wfStatus onboardUser (exec onboardUser paymentFails schedF).status
      = .PartiallyFailed := by
  have hst := complete_status_eq W outcome evs hc
  refine ⟨?_, by decide, by decide, by decide, by decide⟩
  intro n hn
  rw [hst n hn]
  have hmemb : ∀ m ∈ W.preds n,
      (exec W outcome evs).status m = W.finalStatus outcome m := by
    intro m hm
    exact hst m (W.preds_mem n hn m hm)
  constructor
  · intro hsk
    rw [finalStatus_eq] at hsk
    by_cases hall : (W.preds n).all
        (fun m => W.finalStatus outcome m == NodeStatus.Succeeded) = true
    · rw [hall] at hsk
      simp only [if_true] at hsk
      rcases outcomeStatus_cases outcome n with h | h <;> rw [h] at hsk <;> cases hsk
    · rw [Bool.not_eq_true] at hall
      have := List.all_eq_false.mp hall
      obtain ⟨m, hm, hmf⟩ := this
      refine ⟨m, hm, ?_⟩
      rw [hmemb m hm]
      intro he
      rw [he] at hmf
      simp at hmf
  · intro hex
    obtain ⟨m, hm, hmne⟩ := hex
    rw [hmemb m hm] at hmne
    rw [finalStatus_eq]
    have hall : (W.preds n).all
        (fun m => W.finalStatus outcome m == NodeStatus.Succeeded) = false := by
      apply List.all_eq_false.mpr
      exact ⟨m, hm, by simpa using hmne⟩
    rw [hall]
    simp

/-- Witness for C3 at the OnboardUser workflow: the failing-payment run is
complete and yields workflow status `PartiallyFailed`. -/
theorem skip_propagation_witness :
    wfStatus onboardUser (exec onboardUser paymentFails schedF).status
      = .PartiallyFailed :=
  (skip_propagation onboardUser paymentFails schedF (by decide)).2.2.2.2

/-! ## Workflow DAG builder (claim C4) -/

/-- Modelled from the spec (§4.3): the state of the fluent workflow
builder — the nodes registered so far and the predecessor edges
`(pred, succ)` added so far. -/
structure WFBuilder where
  nodes : List Nat
  edges : List (Nat × Nat)
deriving DecidableEq, Repr

/-- The empty builder. -/
def emptyBuilder : WFBuilder := { nodes := [], edges := [] }

/-- Modelled from the spec (§4.3): `builder.start(taskRefs)` registers the
first node(s) as roots and returns a cursor referencing them. -/
def bstart (b : WFBuilder) (xs : List Nat) : WFBuilder × List Nat :=
  ({ b with nodes := b.nodes ++ xs }, xs)

/-- Modelled from the spec (§4.3): `cursor.next(xs)` adds a predecessor
edge from every node currently referenced by the cursor to every node of
`xs` and returns a new cursor referencing exactly the nodes of `xs`.
A cursor is a plain value, so using a branch cursor obtained earlier
extends that branch without touching any other cursor. -/
def bnext (b : WFBuilder) (cur xs : List Nat) : WFBuilder × List Nat :=
  ({ nodes := b.nodes ++ xs.filter (fun x => !(b.nodes.contains x)),
     edges := b.edges ++ cur.flatMap (fun c => xs.map (fun t => (c, t))) }, xs)

/-- The predecessor set of `t` recorded in a builder: the sources of all
edges targeting `t`, accumulated from every cursor that ever targeted it. -/
def WFBuilder.predsOf (b : WFBuilder) (t : Nat) : List Nat :=
  (b.edges.filter (fun e => e.2 == t)).map (fun e => e.1)

/-- The OnboardUser workflow exactly as built in `workflows.ts` lines
187–196: the main chain
`start(initiateOnboard).next([validatePayment, validateIdentity,
validateOrg]).next(approveUser)` and the independent branch
`validateIdentity.next(checkCredit).next(trainCreditMachineLearningModel)`,
which reuses the `validateIdentity` task reference as a cursor.  Returns
the final builder together with the top-level cursor. -/
def buildOnboard : WFBuilder × List Nat :=
  let s1 := bstart emptyBuilder [initiateOnboard]
  let s2 := bnext s1.1 s1.2 [validatePayment, validateIdentity, validateOrg]
  let s3 := bnext s2.1 s2.2 [approveUser]
  let s4 := bnext s3.1 [validateIdentity] [checkCredit]
  let s5 := bnext s4.1 s4.2 [trainCreditMachineLearningModel]
  (s5.1, s3.2)

theorem map_filter_pairs (c t : Nat) (xs : List Nat) :
    ((xs.map (fun x => (c, x))).filter (fun e => e.2 == t)).map (fun e => e.1)
      = List.replicate (xs.count t) c := by
  induction xs with
  | nil => rfl
  | cons a l ih =>
    by_cases h : a = t
    · subst h
      simp only [List.map_cons, List.filter_cons, List.count_cons, beq_self_eq_true,
        if_true, List.map_cons, ih]
      simp [List.replicate_succ, List.replicate]
    · have hne : (a == t) = false := by simpa using h
      simp only [List.map_cons, List.filter_cons, List.count_cons, hne]
      simpa using ih

theorem bind_filter_pairs (cur xs : List Nat) (t : Nat) :
    ((cur.flatMap (fun c => xs.map (fun x => (c, x)))).filter
        (fun e => e.2 == t)).map (fun e => e.1)
      = cur.flatMap (fun c => List.replicate (xs.count t) c) := by
  induction cur with
  | nil => rfl
  | cons c l ih =>
    simp only [List.flatMap_cons, List.filter_append, List.map_append,
      map_filter_pairs, ih]

/-- Claim C4: `cursor.next(xs)` returns a cursor referencing exactly `xs`;
the edges after the call are the old edges plus one edge from every cursor
node to every node of `xs`; the predecessor set of a target accumulates
the cursor nodes of every `.next` call that targets it and is untouched by
calls that do not; and replaying the exact `workflows.ts` build sequence —
including extending the `validateIdentity` branch reference — yields the
OnboardUser predecessor map while leaving the top-level cursor at
`approveUser`. -/
theorem builder_next_spec :
    (∀ (b : WFBuilder) (cur xs : List Nat), (bnext b cur xs).2 = xs) ∧
    (∀ (b : WFBuilder) (cur xs : List Nat) (p t : Nat),
      ((p, t) ∈ (bnext b cur xs).1.edges ↔
        (p, t) ∈ b.edges ∨ (p ∈ cur ∧ t ∈ xs))) ∧
    (∀ (b : WFBuilder) (cur xs : List Nat) (t : Nat), xs.count t = 1 →
      (bnext b cur xs).1.predsOf t = b.predsOf t ++ cur) ∧
    (∀ (b : WFBuilder) (cur xs : List Nat) (t : Nat), t ∉ xs →
      (bnext b cur xs).1.predsOf t = b.predsOf t) ∧
    (∀ n ∈ onboardUser.nodes, buildOnboard.1.predsOf n = onboardPreds n) ∧
    buildOnboard.2 = [approveUser] := by
  refine ⟨fun b cur xs => rfl, ?_, ?_, ?_, by decide, by decide⟩
  · intro b cur xs p t
    simp only [bnext, List.mem_append, List.mem_flatMap, List.mem_map]
    constructor
    · rintro (h | ⟨c, hc, x, hx, heq⟩)
      · exact Or.inl h
      · injection heq with h1 h2
        subst h1
        subst h2
        exact Or.inr ⟨hc, hx⟩
    · rintro (h | ⟨hp, ht⟩)
      · exact Or.inl h
      · exact Or.inr ⟨p, hp, t, ht, rfl⟩
  · intro b cur xs t h
    simp only [bnext, WFBuilder.predsOf, List.filter_append, List.map_append,
      bind_filter_pairs, h]
    congr 1
    simp [List.replicate]
  · intro b cur xs t h
    have hc : xs.count t = 0 := List.count_eq_zero.mpr h
    simp only [bnext, WFBuilder.predsOf, List.filter_append, List.map_append,
      bind_filter_pairs, hc]
    simp

/-- Witness for C4: a join target accumulates the whole cursor as new
predecessors. -/
theorem builder_next_spec_witness :
    (bnext emptyBuilder [validatePayment, validateIdentity]
        [approveUser]).1.predsOf approveUser
      = emptyBuilder.predsOf approveUser ++ [validatePayment, validateIdentity] :=
  builder_next_spec.2.2.1 emptyBuilder [validatePayment, validateIdentity]
    [approveUser] approveUser (by decide)

/-! ## Task queue: run state machine and retries (claims C5–C9) -/

/-- Modelled from the spec (§4.2): the task-run state machine
`Queued → Running → {Succeeded | Queued(retry) | Failed | TimedOut}`. -/
inductive RunState where
  | Queued
  | Running
  | Succeeded
  | Failed
  | TimedOut
deriving DecidableEq, Repr

/-- Terminal run states (§4.2): `Succeeded`, `Failed` and
exhausted-`TimedOut`. -/
def RunState.isTerminal : RunState → Bool
  | .Succeeded => true
  | .Failed => true
  | .TimedOut => true
  | _ => false

/-- Modelled from the spec (§3): a task-run record.  The run id is its
index in the queue store; wall-clock fields are out of the model. -/
structure TaskRun where
  taskName : String
  queue : String
  attempt : Nat
  state : RunState
  result : Option Nat
  failureReason : Option String
deriving DecidableEq, Repr

/-- A fresh run as created by `enqueue` (§4.1): state `Queued`,
`attempt = 0`. -/
def newRun (name q : String) : TaskRun :=
  { taskName := name, queue := q, attempt := 0, state := .Queued,
    result := none, failureReason := none }

/-- Modelled from the spec (§4.1): leasing transitions a `Queued` run to
`Running`; any other state is rejected. -/
def lease (r : TaskRun) : Option TaskRun :=
  if r.state = .Queued then some { r with state := .Running } else none

/-- Modelled from the spec (§4.1): `acknowledge` transitions
`Running → Succeeded`, storing the result; invalid otherwise. -/
def acknowledge (r : TaskRun) (v : Nat) : Option TaskRun :=
  if r.state = .Running then
    some { r with state := .Succeeded, result := some v }
  else none

/-- Modelled from the spec (§4.1): `fail(runId, reason, retryable)`
transitions `Running` to `Queued` (incrementing `attempt`) if `retryable`
and `attempt < maxRetries`, else to terminal `Failed`. -/
def fail (maxRetries : Nat) (r : TaskRun) (reason : String)
    (retryable : Bool) : Option TaskRun :=
  if r.state = .Running then
    some (if retryable ∧ r.attempt < maxRetries then
      { r with state := .Queued, attempt := r.attempt + 1 }
    else
      { r with state := .Failed, failureReason := some reason })
  else none

/-- One lease/execute cycle of a task whose body always fails retryably. -/
def failCycle (maxRetries : Nat) (reason : String) (r : TaskRun) :
    Option TaskRun :=
  (lease r).bind (fun r' => fail maxRetries r' reason true)

/-- The run of an always-failing task after `i` lease/fail cycles. -/
def failCycles (maxRetries : Nat) (reason name q : String) :
    Nat → Option TaskRun
  | 0 => some (newRun name q)
  | i + 1 => (failCycles maxRetries reason name q i).bind
      (failCycle maxRetries reason)

/-- Claim C5: A task with `maxRetries = k` whose body fails on every attempt
is re-queued after each of its first `k` lease/fail cycles, with the
attempt counter equal to the number of cycles so far (starting at 0 and
incrementing by one); the `(k+1)`-st cycle makes it terminal `Failed` at
attempt `k`.  In general `fail` moves a `Running` run to `Queued` with
`attempt + 1` exactly when it is retryable with `attempt < maxRetries`,
and to terminal `Failed` (recording the reason) otherwise. -/
theorem retry_exhaustion (k : Nat) (reason name q : String) :
    (∀ i, i ≤ k → failCycles k reason name q i
      = some { taskName := name, queue := q, attempt := i, state := .Queued,
               result := none, failureReason := none }) ∧
    (failCycles k reason name q (k + 1)
      = some { taskName := name, queue := q, attempt := k, state := .Failed,
               result := none, failureReason := some reason }) ∧
    (∀ (r : TaskRun) (retryable : Bool), r.state = .Running →
      (retryable = true ∧ r.attempt < k →
        fail k r reason retryable
          = some { r with state := .Queued, attempt := r.attempt + 1 }) ∧
      (¬(retryable = true ∧ r.attempt < k) →
        fail k r reason retryable
          = some { r with state := .Failed, failureReason := some reason })) ∧
    (∀ (r : TaskRun) (retryable : Bool), r.state ≠ .Running →
      fail k r reason retryable = none) := by
  have hmain : ∀ i, i ≤ k → failCycles k reason name q i
      = some { taskName := name, queue := q, attempt := i, state := .Queued,
               result := none, failureReason := none } := by
    intro i
    induction i with
    | zero =>
      intro _
      rfl
    | succ i ih =>
      intro hik
      have hi : i ≤ k := Nat.le_of_succ_le hik
      have hlt : i < k := Nat.lt_of_succ_le hik
      rw [failCycles, ih hi]
      simp [failCycle, lease, fail, hlt]
  refine ⟨hmain, ?_, ?_, ?_⟩
  · rw [failCycles, hmain k le_rfl]
    simp [failCycle, lease, fail]
  · intro r retryable hrun
    constructor
    · intro hretry
      simp only [fail]
      rw [if_pos hrun, if_pos hretry]
    · intro hnretry
      simp only [fail]
      rw [if_pos hrun, if_neg hnretry]
  · intro r retryable hure
    simp [fail, hure]

/-- Witness for C5: with `maxRetries = 2`, after two always-failing cycles
the run is queued again at attempt 2. -/
theorem retry_exhaustion_witness :
    failCycles 2 "boom" "alwaysFails" "default" 2
      = some { taskName := "alwaysFails", queue := "default", attempt := 2,
               state := .Queued, result := none, failureReason := none } :=
  (retry_exhaustion 2 "boom" "alwaysFails" "default").1 2 (by decide)

/-! ## Cron trigger (claim C6) -/

/-- Modelled from the spec (§4.1): events affecting the scheduled runs of
one cron-configured task — a schedule tick, or run `i` advancing one step
of the run state machine. -/
inductive CronEv where
  | tick
  | adv (i : Nat) (dst : RunState)
deriving DecidableEq, Repr

/-- A valid single-run transition of the §4.2 state machine
(`Queued → Running → {Succeeded | Queued(retry) | Failed | TimedOut}`);
terminal states are absorbing. -/
def validTrans : RunState → RunState → Bool
  | .Queued, .Running => true
  | .Running, .Succeeded => true
  | .Running, .Failed => true
  | .Running, .TimedOut => true
  | .Running, .Queued => true
  | _, _ => false

/-- Modelled from the spec (§4.1): the cron trigger for one task.  A tick
appends a fresh `Queued` scheduled run unless the previous scheduled run
(the last one) is still non-terminal, in which case the tick is skipped
(nothing is enqueued); `adv` lets an existing run progress through the
state machine. -/
def cronStep (runs : List RunState) : CronEv → List RunState
  | .tick =>
    match runs.getLast? with
    | some s => if s.isTerminal then runs ++ [.Queued] else runs
    | none => runs ++ [.Queued]
  | .adv i dst =>
    match runs[i]? with
    | some s => if validTrans s dst then runs.set i dst else runs
    | none => runs

/-- The scheduled-run history of a cron task after a sequence of events. -/
def cronExec (evs : List CronEv) : List RunState := evs.foldl cronStep []

/-- Every scheduled run except possibly the last is terminal. -/
def okPrefix : List RunState → Bool
  | [] => true
  | [_] => true
  | s :: rest => s.isTerminal && okPrefix rest

theorem validTrans_nonTerminal (s t : RunState) (h : validTrans s t = true) :
    s.isTerminal = false := by
  cases s <;> first
    | rfl
    | (cases t <;> simp [validTrans] at h)

theorem okPrefix_append (runs : List RunState) (x : RunState)
    (h : okPrefix runs = true)
    (hlast : ∀ s, runs.getLast? = some s → s.isTerminal = true) :
    okPrefix (runs ++ [x]) = true := by
  induction runs with
  | nil => rfl
  | cons a l ih =>
    cases l with
    | nil =>
      have ha : a.isTerminal = true := hlast a rfl
      simp [okPrefix, ha]
    | cons b t =>
      have hsplit : a.isTerminal = true ∧ okPrefix (b :: t) = true := by
        simpa [okPrefix, Bool.and_eq_true] using h
      have hrest : okPrefix ((b :: t) ++ [x]) = true := by
        apply ih hsplit.2
        intro s hs
        apply hlast s
        rw [List.getLast?_cons_cons]
        exact hs
      simpa [okPrefix, Bool.and_eq_true, hsplit.1] using hrest

theorem okPrefix_set :
    ∀ (runs : List RunState) (i : Nat) (dst s : RunState),
      okPrefix runs = true → runs[i]? = some s → validTrans s dst = true →
      okPrefix (runs.set i dst) = true := by
  intro runs
  induction runs with
  | nil =>
    intro i dst s _ hi _
    simp at hi
  | cons a l ih =>
    intro i dst s h hi hv
    cases i with
    | zero =>
      simp only [List.getElem?_cons_zero, Option.some.injEq] at hi
      subst hi
      cases l with
      | nil => rfl
      | cons b t =>
        have haf : a.isTerminal = false := validTrans_nonTerminal a dst hv
        simp [okPrefix, haf] at h
    | succ j =>
      simp only [List.getElem?_cons_succ] at hi
      cases l with
      | nil => simp at hi
      | cons b t =>
        have hsplit : a.isTerminal = true ∧ okPrefix (b :: t) = true := by
          simpa [okPrefix, Bool.and_eq_true] using h
        have hrest := ih j dst s hsplit.2 hi hv
        have hshape : (a :: b :: t).set (j + 1) dst = a :: (b :: t).set j dst := rfl
        rw [hshape]
        cases j with
        | zero =>
          simpa [okPrefix, Bool.and_eq_true, hsplit.1] using hrest
        | succ j' =>
          simpa [okPrefix, Bool.and_eq_true, hsplit.1] using hrest

theorem cronStep_ok (runs : List RunState) (e : CronEv)
    (h : okPrefix runs = true) : okPrefix (cronStep runs e) = true := by
  cases e with
  | tick =>
    simp only [cronStep]
    cases hlast : runs.getLast? with
    | none =>
      apply okPrefix_append runs _ h
      intro s hs
      rw [hlast] at hs
      cases hs
    | some s =>
      dsimp only
      by_cases hterm : s.isTerminal = true
      · rw [if_pos hterm]
        apply okPrefix_append runs _ h
        intro s' hs'
        rw [hlast] at hs'
        injection hs' with he
        rw [← he]
        exact hterm
      · rw [if_neg hterm]
        exact h
  | adv i dst =>
    simp only [cronStep]
    cases hi : runs[i]? with
    | none => exact h
    | some s =>
      dsimp only
      by_cases hv : validTrans s dst = true
      · rw [if_pos hv]
        exact okPrefix_set runs i dst s h hi hv
      · rw [if_neg hv]
        exact h

theorem okPrefix_count :
    ∀ runs : List RunState, okPrefix runs = true →
      runs.countP (fun s => !s.isTerminal) ≤ 1 := by
  intro runs
  induction runs with
  | nil =>
    intro _
    simp
  | cons a l ih =>
    intro h
    cases l with
    | nil =>
      simp only [List.countP_cons, List.countP_nil]
      split <;> omega
    | cons b t =>
      have hsplit : a.isTerminal = true ∧ okPrefix (b :: t) = true := by
        simpa [okPrefix, Bool.and_eq_true] using h
      have hle := ih hsplit.2
      have h2 : List.countP (fun s => !s.isTerminal) (a :: b :: t)
          = List.countP (fun s => !s.isTerminal) (b :: t) := by
        simp [List.countP_cons, hsplit.1]
      rw [h2]
      exact hle

/-- Claim C6: In every reachable state of the cron trigger, at most one
scheduled run of the task is non-terminal (overlapping cron executions
never occur), and a tick that finds the previous scheduled run still
non-terminal enqueues nothing: the state is unchanged. -/
theorem cron_no_overlap :
    (∀ evs : List CronEv,
      (cronExec evs).countP (fun s => !s.isTerminal) ≤ 1) ∧
    (∀ (runs : List RunState) (s : RunState), runs.getLast? = some s →
      s.isTerminal = false → cronStep runs .tick = runs) := by
  constructor
  · intro evs
    apply okPrefix_count
    have h : ∀ l, okPrefix l = true →
        okPrefix (evs.foldl cronStep l) = true := by
      induction evs with
      | nil => intro l hl; exact hl
      | cons e t iht =>
        intro l hl
        exact iht _ (cronStep_ok l e hl)
    exact h [] rfl
  · intro runs s hs hterm
    simp only [cronStep, hs]
    have hcond : ¬ s.isTerminal = true := by
      rw [hterm]
      simp
    rw [if_neg hcond]

/-- Witness for C6: a tick with the previous scheduled run still `Running`
leaves the run list unchanged. -/
theorem cron_no_overlap_witness :
    cronStep [RunState.Succeeded, RunState.Running] .tick
      = [RunState.Succeeded, RunState.Running] :=
  cron_no_overlap.2 [RunState.Succeeded, RunState.Running] RunState.Running
    (by decide) (by decide)

/-! ## Task handle: `wait` and `result` (claims C7, C8) -/

/-- Modelled from the spec (§4.2/§7): the condition raised by `wait()`
when the awaited run did not succeed, carrying the failure reason. -/
inductive WaitErr where
  | TaskFailed (reason : String)
deriving DecidableEq, Repr

/-- Modelled from the spec (§7): the condition raised by `result()` when
the awaited run did not succeed. -/
inductive ResultErr where
  | NotSucceeded
deriving DecidableEq, Repr

/-- Modelled from the spec (§4.2): `handle.wait()` against the queue
store.  On a terminal run it returns the stored result (`Succeeded`) or
raises `TaskFailed` with the stored failure reason; on a non-terminal or
unknown run it suspends (`none`).  The store is threaded through to make
explicit that waiting never mutates it. -/
def wait (store : List TaskRun) (runId : Nat) :
    Option (Except WaitErr Nat) × List TaskRun :=
  match store[runId]? with
  | none => (none, store)
  | some r =>
    match r.state with
    | .Succeeded => (some (.ok (r.result.getD 0)), store)
    | .Failed => (some (.error (.TaskFailed (r.failureReason.getD ""))), store)
    | .TimedOut =>
      (some (.error (.TaskFailed (r.failureReason.getD "timed out"))), store)
    | _ => (none, store)

/-- The outcomes of `N` consecutive `wait()` calls on the same handle,
threading the store through each call. -/
def waitN (store : List TaskRun) (runId : Nat) :
    Nat → List (Option (Except WaitErr Nat)) × List TaskRun
  | 0 => ([], store)
  | n + 1 =>
    ((wait store runId).1 :: (waitN (wait store runId).2 runId n).1,
     (waitN (wait store runId).2 runId n).2)

theorem wait_store_eq (store : List TaskRun) (runId : Nat) :
    (wait store runId).2 = store := by
  unfold wait
  cases store[runId]? with
  | none => rfl
  | some r =>
    obtain ⟨tn, q, a, st, res, fr⟩ := r
    cases st <;> rfl

/-- Claim C7: Once the referenced run is terminal, `wait()` yields an actual
outcome, leaves the store untouched, and calling it any number `N` of
times returns the identical outcome every time (the outcome list is a
replicate of the first call's result). -/
theorem wait_idempotent (store : List TaskRun) (runId : Nat) (r : TaskRun)
    (hr : store[runId]? = some r) (hterm : r.state.isTerminal = true) :
    (∃ out : Except WaitErr Nat, (wait store runId).1 = some out) ∧
    (wait store runId).2 = store ∧
    (∀ N, (waitN store runId N).1 = List.replicate N (wait store runId).1 ∧
      (waitN store runId N).2 = store) := by
  refine ⟨?_, wait_store_eq store runId, ?_⟩
  · unfold wait
    rw [hr]
    obtain ⟨tn, q, a, st, res, fr⟩ := r
    cases st with
    | Queued => simp [RunState.isTerminal] at hterm
    | Running => simp [RunState.isTerminal] at hterm
    | Succeeded => exact ⟨.ok (res.getD 0), rfl⟩
    | Failed => exact ⟨.error (.TaskFailed (fr.getD "")), rfl⟩
    | TimedOut => exact ⟨.error (.TaskFailed (fr.getD "timed out")), rfl⟩
  · intro N
    induction N with
    | zero => exact ⟨rfl, rfl⟩
    | succ n ih =>
      have hw := wait_store_eq store runId
      constructor
      · show (wait store runId).1 :: (waitN (wait store runId).2 runId n).1 = _
        rw [hw, ih.1, List.replicate_succ]
      · show (waitN (wait store runId).2 runId n).2 = store
        rw [hw, ih.2]

/-- A concrete finished run used in witnesses. -/
def doneRun : TaskRun :=
  { taskName := "helloWorld", queue := "default", attempt := 0,
    state := .Succeeded, result := some 42, failureReason := none }

/-- Witness for C7 at a one-run store holding a succeeded run. -/
theorem wait_idempotent_witness :
    (wait [doneRun] 0).2 = [doneRun] :=
  (wait_idempotent [doneRun] 0 doneRun (by rfl) (by decide)).2.1

/-- Modelled from the spec (§4.2): `handle.result()` — the stored result
exactly when the run ended `Succeeded`, the `NotSucceeded` condition on
any other terminal state, suspension otherwise. -/
def result (store : List TaskRun) (runId : Nat) :
    Option (Except ResultErr Nat) :=
  match store[runId]? with
  | none => none
  | some r =>
    match r.state with
    | .Succeeded => some (.ok (r.result.getD 0))
    | .Failed => some (.error .NotSucceeded)
    | .TimedOut => some (.error .NotSucceeded)
    | _ => none

/-- Claim C8: `result()` is `wait()` with no timeout followed by unwrapping
a success — the same computation with every failure mapped to
`NotSucceeded` — and on a terminal run it returns the stored result iff
the run ended `Succeeded`, and surfaces `NotSucceeded` to the caller iff
it ended in any other terminal state. -/
theorem result_spec (store : List TaskRun) (runId : Nat) :
    (result store runId = (wait store runId).1.map
      (fun e => match e with
        | .ok v => .ok v
        | .error _ => .error ResultErr.NotSucceeded)) ∧
    (∀ r, store[runId]? = some r → r.state.isTerminal = true →
      ((∃ v, result store runId = some (.ok v)) ↔ r.state = .Succeeded) ∧
      ((result store runId = some (.error .NotSucceeded)) ↔
        r.state ≠ .Succeeded)) := by
  constructor
  · unfold result wait
    cases store[runId]? with
    | none => rfl
    | some r =>
      obtain ⟨tn, q, a, st, res, fr⟩ := r
      cases st <;> rfl
  · intro r hr hterm
    unfold result
    rw [hr]
    obtain ⟨tn, q, a, st, res, fr⟩ := r
    cases st with
    | Queued => simp [RunState.isTerminal] at hterm
    | Running => simp [RunState.isTerminal] at hterm
    | Succeeded => simp
    | Failed => simp
    | TimedOut => simp

/-- Witness for C8: on a succeeded run, `result()` returns the stored
value. -/
theorem result_spec_witness :
    (∃ v, result [doneRun] 0 = some (.ok v)) ↔ doneRun.state = .Succeeded :=
  ((result_spec [doneRun] 0).2 doneRun (by rfl) (by decide)).1

/-! ## Registry and `send` (claim C9) -/

/-- Modelled from the spec (§3): static task configuration. -/
structure TaskConfig where
  queue : String
  timeoutSeconds : Nat
  maxRetries : Nat
  cronExpression : Option String
deriving DecidableEq, Repr

/-- Modelled from the spec (§7): the errors of the registry / submission
API.  These are the only failure modes — programmer errors; by
construction there is no transient-queue-unavailability error. -/
inductive SendErr where
  | UnknownTask
  | DuplicateTaskName
deriving DecidableEq, Repr

/-- Modelled from the spec (§2): the task registry, mapping task names to
their configuration. -/
structure Registry where
  tasks : List (String × TaskConfig)
deriving DecidableEq, Repr

def Registry.lookup (reg : Registry) (name : String) : Option TaskConfig :=
  (reg.tasks.find? (fun p => p.1 == name)).map (fun p => p.2)

/-- Modelled from the spec (§4.1): `register(definition)` fails with
`DuplicateTaskName` if the name is already present. -/
def register (reg : Registry) (name : String) (cfg : TaskConfig) :
    Except SendErr Registry :=
  if reg.tasks.any (fun p => p.1 == name) then .error .DuplicateTaskName
  else .ok { tasks := reg.tasks ++ [(name, cfg)] }

/-- Modelled from the spec (§4.1): `enqueue(taskName, args)` fails with
`UnknownTask` if the task is not registered; otherwise it appends a fresh
run in state `Queued` on the task's configured queue and immediately
returns the new run's id. -/
def enqueue (reg : Registry) (store : List TaskRun) (name : String) :
    Except SendErr (List TaskRun × Nat) :=
  match reg.lookup name with
  | none => .error .UnknownTask
  | some cfg => .ok (store ++ [newRun name cfg.queue], store.length)

theorem getElem_append_len {α : Type} (l : List α) (a : α) :
    (l ++ [a])[l.length]? = some a := by
  induction l with
  | nil => rfl
  | cons x t ih =>
    simp only [List.cons_append, List.length_cons, List.getElem?_cons_succ]
    exact ih

/-- Claim C9: `send` raises only for programmer errors: an `enqueue` error
is always `UnknownTask` (and happens exactly when the task name is
unregistered), a `register` error is always `DuplicateTaskName`; and for a
registered task, `enqueue` immediately returns the id of a freshly stored
run whose state is `Queued` on the task's configured queue. -/
theorem send_spec (reg : Registry) (store : List TaskRun) (name : String) :
    (∀ e, enqueue reg store name = .error e → e = .UnknownTask) ∧
    (enqueue reg store name = .error .UnknownTask ↔ reg.lookup name = none) ∧
    (∀ cfg e, register reg name cfg = .error e → e = .DuplicateTaskName) ∧
    (∀ cfg, reg.lookup name = some cfg →
      enqueue reg store name
        = .ok (store ++ [newRun name cfg.queue], store.length) ∧
      (store ++ [newRun name cfg.queue])[store.length]?
        = some (newRun name cfg.queue) ∧
      (newRun name cfg.queue).state = .Queued ∧
      (newRun name cfg.queue).queue = cfg.queue ∧
      (newRun name cfg.queue).attempt = 0) := by
  refine ⟨?_, ?_, ?_, ?_⟩
  · intro e he
    unfold enqueue at he
    cases hl : reg.lookup name with
    | none =>
      rw [hl] at he
      injection he with he'
      exact he'.symm
    | some cfg =>
      rw [hl] at he
      cases he
  · constructor
    · intro he
      unfold enqueue at he
      cases hl : reg.lookup name with
      | none => rfl
      | some cfg =>
        rw [hl] at he
        cases he
    · intro hl
      unfold enqueue
      rw [hl]
  · intro cfg e he
    unfold register at he
    by_cases hdup : reg.tasks.any (fun p => p.1 == name) = true
    · rw [if_pos hdup] at he
      injection he with he'
      exact he'.symm
    · rw [if_neg hdup] at he
      cases he
  · intro cfg hl
    refine ⟨?_, getElem_append_len store _, rfl, rfl, rfl⟩
    unfold enqueue
    rw [hl]

/-- Witness for C9 at a registry holding only `helloWorld` (as in
`hyrex/tasks.ts`): enqueueing it stores a fresh queued run. -/
theorem send_spec_witness :
    enqueue { tasks := [("helloWorld",
        { queue := "default", timeoutSeconds := 30, maxRetries := 0,
          cronExpression := none })] } [] "helloWorld"
      = .ok ([newRun "helloWorld" "default"], 0) :=
  ((send_spec { tasks := [("helloWorld",
      { queue := "default", timeoutSeconds := 30, maxRetries := 0,
        cronExpression := none })] } [] "helloWorld").2.2.2
    { queue := "default", timeoutSeconds := 30, maxRetries := 0,
      cronExpression := none } (by rfl)).1

/-! ## Next.js server actions (claim C10, from `src/app/actions.ts`) -/

/-- The object returned by the server actions: `success` plus the optional
`message`, `taskId`, `workflowId` and `error` fields of `actions.ts`. -/
structure ActionResult where
  success : Bool
  message : Option String
  taskId : Option Nat
  workflowId : Option Nat
  error : Option String
deriving DecidableEq, Repr

/-- Embedding of `triggerHelloWorld` from `src/app/actions.ts` lines 26–42: the awaited
`helloWorldTask.send` outcome is the only fallible step (everything is
inside the `try`); an exception is caught and mapped to the fixed failure
object, a success is wrapped with the task id. -/
def triggerHelloWorld (name : Option String)
    (sendOutcome : Except String Nat) : ActionResult :=
  match sendOutcome with
  | .ok taskId =>
    { success := true,
      message := some ("Task submitted for " ++ name.getD "World"),
      taskId := some taskId, workflowId := none, error := none }
  | .error _ =>
    { success := false, message := none, taskId := none, workflowId := none,
      error := some "Failed to trigger task" }

/-- Embedding of `triggerUserOnboarding` from `src/app/actions.ts` lines 44–60. -/
def triggerUserOnboarding (sendOutcome : Except String Nat) : ActionResult :=
  match sendOutcome with
  | .ok workflowId =>
    { success := true, message := some "User onboarding workflow started",
      taskId := none, workflowId := some workflowId, error := none }
  | .error _ =>
    { success := false, message := none, taskId := none, workflowId := none,
      error := some "Failed to trigger onboarding workflow" }

/-- Claim C10: The server actions are total on every `send` outcome — an
exception from `send` is caught and mapped to `{ success := false }` with
the fixed error message, never rethrown — a successful send yields
`{ success := true }` carrying the task/workflow id, and the `success`
field alone distinguishes the two outcomes. -/
theorem actions_never_throw (name : Option String)
    (o : Except String Nat) :
    (∀ tid, triggerHelloWorld name (.ok tid)
      = { success := true,
          message := some ("Task submitted for " ++ name.getD "World"),
          taskId := some tid, workflowId := none, error := none }) ∧
    (∀ e, triggerHelloWorld name (.error e)
      = { success := false, message := none, taskId := none,
          workflowId := none, error := some "Failed to trigger task" }) ∧
    ((triggerHelloWorld name o).success = true ↔ ∃ tid, o = .ok tid) ∧
    (∀ wid, triggerUserOnboarding (.ok wid)
      = { success := true, message := some "User onboarding workflow started",
          taskId := none, workflowId := some wid, error := none }) ∧
    (∀ e, triggerUserOnboarding (.error e)
      = { success := false, message := none, taskId := none,
          workflowId := none,
          error := some "Failed to trigger onboarding workflow" }) ∧
    ((triggerUserOnboarding o).success = true ↔ ∃ wid, o = .ok wid) := by
  refine ⟨fun tid => rfl, fun e => rfl, ?_, fun wid => rfl, fun e => rfl, ?_⟩
  · cases o with
    | ok tid => simp [triggerHelloWorld]
    | error e => simp [triggerHelloWorld]
  · cases o with
    | ok wid => simp [triggerUserOnboarding]
    | error e => simp [triggerUserOnboarding]

end Hyrex
